import Mathlib

/-!
Verification of the llama.swift inference-support runtime (`Sources/cpp/utils.h`)
against its natural-language specification.

The repository ships only the declarations (`utils.h`); the bodies of
`llama_tokenize`, `llama_sample_top_p_top_k`, `sample_top_k`,
`ggml_quantize_q4_0` and `ggml_quantize_q4_1` are not part of the visible
sources.  Following the spec, those operations are modelled here from the
spec's own words.  Floating-point values are modelled as rationals (`ℚ`),
machine integers as `ℤ`/`ℕ`, and the C++ `std::mt19937` random stream as an
explicitly passed rational draw in `[0,1)`.
-/

namespace LlamaSwift

/-- `round` as used by the quantizer: round half away from zero
(the semantics of C `round`). -/
def roundAway (q : ℚ) : ℤ :=
  if 0 ≤ q then ⌊q + 1/2⌋ else -⌊-q + 1/2⌋

/-- Clamp an integer code into `[lo, hi]`. -/
def clampZ (lo hi z : ℤ) : ℤ := max lo (min hi z)

/-- Maximum of a list of rationals (0 for the empty list). -/
def listMax2 : List ℚ → ℚ
  | [] => 0
  | x :: xs => xs.foldr max x

/-- Minimum of a list of rationals (0 for the empty list). -/
def listMin2 : List ℚ → ℚ
  | [] => 0
  | x :: xs => xs.foldr min x

/-- Maximum absolute value in a block. -/
def absMax (blk : List ℚ) : ℚ := listMax2 (blk.map (fun v => |v|))

/-!
## Quantizer (spec §4.4)

Modelled from the spec: the bodies of `ggml_quantize_q4_0` and
`ggml_quantize_q4_1` are not under the visible sources (only their
declarations in `utils.h`), so the two per-block codecs are transcribed
from spec §4.4.
-/

/-- Modelled from the spec: per-block scale of the symmetric 4-bit variant of
`ggml_quantize_q4_0` — `scale = absmax / 7`. -/
def q4_0_scale (blk : List ℚ) : ℚ := absMax blk / 7

/-- Modelled from the spec: symmetric per-value encoder of
`ggml_quantize_q4_0` — `round(value/scale) + 8`, clamped to `[0,15]`.
(`ℚ` division is total with `v / 0 = 0`, so an all-zero block maps to the
center code 8.) -/
def q4_0_code1 (scale v : ℚ) : ℤ := clampZ 0 15 (roundAway (v / scale) + 8)

/-- Modelled from the spec: symmetric per-code decoder — `(code - 8) * scale`. -/
def q4_0_dequant1 (scale : ℚ) (c : ℤ) : ℚ := ((c : ℚ) - 8) * scale

/-- Modelled from the spec: quantize one block under the symmetric variant,
returning the scale and the per-value codes. -/
def q4_0_block (blk : List ℚ) : ℚ × List ℤ :=
  (q4_0_scale blk, blk.map (q4_0_code1 (q4_0_scale blk)))

/-- Decode a symmetric-variant block. -/
def q4_0_dequant_block (b : ℚ × List ℤ) : List ℚ :=
  b.2.map (q4_0_dequant1 b.1)

/-- Modelled from the spec: per-block scale of the asymmetric 4-bit variant of
`ggml_quantize_q4_1` — `scale = (max - min) / 15`. -/
def q4_1_scale (blk : List ℚ) : ℚ := (listMax2 blk - listMin2 blk) / 15

/-- Modelled from the spec: asymmetric per-value encoder of
`ggml_quantize_q4_1` — `round((value - min)/scale)`, clamped to `[0,15]`;
a degenerate block (`scale = 0`) maps every element to code 0 without
performing the division. -/
def q4_1_code1 (scale vmin v : ℚ) : ℤ :=
  if scale = 0 then 0 else clampZ 0 15 (roundAway ((v - vmin) / scale))

/-- Modelled from the spec: asymmetric per-code decoder — `code * scale + min`. -/
def q4_1_dequant1 (scale vmin : ℚ) (c : ℤ) : ℚ := (c : ℚ) * scale + vmin

/-- Modelled from the spec: quantize one block under the asymmetric variant,
returning the scale, the offset (block minimum) and the per-value codes. -/
def q4_1_block (blk : List ℚ) : ℚ × ℚ × List ℤ :=
  (q4_1_scale blk, listMin2 blk, blk.map (q4_1_code1 (q4_1_scale blk) (listMin2 blk)))

/-- Decode an asymmetric-variant block. -/
def q4_1_dequant_block (b : ℚ × ℚ × List ℤ) : List ℚ :=
  b.2.2.map (q4_1_dequant1 b.1 b.2.1)

/-- Split a buffer into consecutive blocks of `qk` elements. -/
def chunkList (qk : ℕ) (l : List ℚ) : List (List ℚ) :=
  if qk = 0 ∨ l = [] then [] else l.take qk :: chunkList qk (l.drop qk)
termination_by l.length
decreasing_by
  rename_i h
  push_neg at h
  have h1 : 0 < qk := Nat.pos_of_ne_zero h.1
  have h2 : l ≠ [] := h.2
  simp only [List.length_drop]
  have : 0 < l.length := List.length_pos.mpr h2
  omega

/-- Modelled from the spec: `ggml_quantize_q4_0` over a whole buffer —
a data-parallel map of the symmetric block codec over the `qk`-element
blocks of the source. -/
def ggml_quantize_q4_0 (src : List ℚ) (qk : ℕ) : List (ℚ × List ℤ) :=
  (chunkList qk src).map q4_0_block

/-- Modelled from the spec: `ggml_quantize_q4_1` over a whole buffer —
a data-parallel map of the asymmetric block codec over the `qk`-element
blocks of the source. -/
def ggml_quantize_q4_1 (src : List ℚ) (qk : ℕ) : List (ℚ × ℚ × List ℤ) :=
  (chunkList qk src).map q4_1_block

/-- Error taxonomy of spec §7 (the part the claims exercise). -/
inductive UtilError where
  | InvalidParameterError
  deriving DecidableEq, Repr

/-- Modelled from the spec: the `ggml_quantize_q4_0` entry point checks that
the block size divides the element count `n*k` before producing any output
(`InvalidParameterError` otherwise, with no partial result). -/
def ggml_quantize_q4_0_checked (src : List ℚ) (n k qk : ℕ) :
    Except UtilError (List (ℚ × List ℤ)) :=
  if qk = 0 ∨ ¬ (qk ∣ n * k) then .error .InvalidParameterError
  else .ok (ggml_quantize_q4_0 src qk)

/-- Modelled from the spec: the `ggml_quantize_q4_1` entry point checks that
the block size divides the element count `n*k` before producing any output
(`InvalidParameterError` otherwise, with no partial result). -/
def ggml_quantize_q4_1_checked (src : List ℚ) (n k qk : ℕ) :
    Except UtilError (List (ℚ × ℚ × List ℤ)) :=
  if qk = 0 ∨ ¬ (qk ∣ n * k) then .error .InvalidParameterError
  else .ok (ggml_quantize_q4_1 src qk)

/-!
## Sampler (spec §4.3)

Modelled from the spec: the bodies of `llama_sample_top_p_top_k` and
`sample_top_k` are not under the visible sources (only their declarations
in `utils.h`), so the four-stage pipeline is transcribed from spec §4.3.
The exponential of the softmax is an abstract parameter `ex : ℚ → ℚ`
(its analytic properties are irrelevant to the claims); the seeded
`std::mt19937` stream is modelled by the rational draw `u` it supplies.
-/

/-- Pair each logit with its token id (the logits array is indexed by id). -/
def logitsWithIds (logits : List ℚ) : List (ℚ × ℕ) :=
  logits.enum.map (fun p => (p.2, p.1))

/-- Modelled from the spec: stage 1, repetition penalty — for every id in the
history, divide its logit by `repeat_penalty` if positive, else multiply. -/
def applyRepeatPenalty (last_n_tokens : List ℕ) (repeat_penalty : ℚ)
    (lid : List (ℚ × ℕ)) : List (ℚ × ℕ) :=
  lid.map (fun p =>
    if p.2 ∈ last_n_tokens then
      (if 0 < p.1 then p.1 / repeat_penalty else p.1 * repeat_penalty, p.2)
    else p)

/-- Ordering of stage 2: descending by logit, ties by id ascending. -/
def topKLe (a b : ℚ × ℕ) : Bool :=
  decide (b.1 < a.1 ∨ (a.1 = b.1 ∧ a.2 ≤ b.2))

/-- Stable insertion used by the sorting of stages 2 and 3. -/
def insertBy {α : Type} (le : α → α → Bool) (x : α) : List α → List α
  | [] => [x]
  | y :: ys => if le x y then x :: y :: ys else y :: insertBy le x ys

/-- Stable insertion sort used by the sorting of stages 2 and 3. -/
def sortBy {α : Type} (le : α → α → Bool) (l : List α) : List α :=
  l.foldr (insertBy le) []

/-- Modelled from the spec: stage 2, the standalone `sample_top_k` filter —
sort descending by logit (ties by id ascending) and retain the first
`top_k` entries. -/
def sample_top_k (lid : List (ℚ × ℕ)) (top_k : ℕ) : List (ℚ × ℕ) :=
  (sortBy topKLe lid).take top_k

/-- Numerically stable softmax of spec §4.3: subtract the maximum before
exponentiating, then normalize. -/
def softmaxQ (ex : ℚ → ℚ) (ls : List ℚ) : List ℚ :=
  let m := listMax2 ls
  let ws := ls.map (fun l => ex (l - m))
  let s := ws.foldr (· + ·) 0
  ws.map (fun w => w / s)

/-- Ordering of stage 3: descending by probability, ties by id ascending. -/
def topPLe (a b : ℚ × (ℚ × ℕ)) : Bool :=
  decide (b.1 < a.1 ∨ (a.1 = b.1 ∧ a.2.2 ≤ b.2.2))

/-- Keep the smallest prefix whose accumulated probability mass exceeds
`top_p` (always at least one entry). -/
def takeMass (top_p : ℚ) : ℚ → List (ℚ × (ℚ × ℕ)) → List (ℚ × (ℚ × ℕ))
  | _, [] => []
  | acc, x :: xs =>
      x :: (if top_p < acc + x.1 then [] else takeMass top_p (acc + x.1) xs)

/-- Modelled from the spec: stage 3, the top-p (nucleus) filter — convert the
retained logits to probabilities by the stable softmax, sort descending by
probability, and keep the smallest prefix of cumulative mass exceeding
`top_p`. -/
def sample_top_p (ex : ℚ → ℚ) (top_p : ℚ) (lid : List (ℚ × ℕ)) :
    List (ℚ × ℕ) :=
  let probs := softmaxQ ex (lid.map Prod.fst)
  let sorted := sortBy topPLe (probs.zip lid)
  (takeMass top_p 0 sorted).map Prod.snd

/-- Inverse-CDF draw from a discrete distribution given one uniform
rational `u` from the generator stream. -/
def drawFrom : List (ℚ × ℕ) → ℚ → ℕ
  | [], _ => 0
  | [(_, i)], _ => i
  | (p, i) :: x :: xs, u => if u < p then i else drawFrom (x :: xs) (u - p)

/-- Modelled from the spec: stage 4 — divide the retained logits by the
temperature, recompute the softmax, and draw one id from the resulting
distribution using the supplied generator draw. -/
def temperatureDraw (ex : ℚ → ℚ) (temp : ℚ) (u : ℚ)
    (lid : List (ℚ × ℕ)) : ℕ :=
  let scaled := lid.map (fun p => (p.1 / temp, p.2))
  let probs := softmaxQ ex (scaled.map Prod.fst)
  drawFrom (probs.zip (scaled.map Prod.snd)) u

/-- Modelled from the spec: `llama_sample_top_p_top_k` — the four-stage
pipeline (repetition penalty, top-k, top-p, temperature scaling with a
softmax re-normalization and a single draw), applied strictly in this
order. -/
def llama_sample_top_p_top_k (ex : ℚ → ℚ) (logits : List ℚ)
    (last_n_tokens : List ℕ) (repeat_penalty : ℚ) (top_k : ℕ)
    (top_p temp u : ℚ) : ℕ :=
  let l1 := applyRepeatPenalty last_n_tokens repeat_penalty (logitsWithIds logits)
  let l2 := sample_top_k l1 top_k
  let l3 := sample_top_p ex top_p l2
  temperatureDraw ex temp u l3

/-- Modelled from the spec: the checked entry point rejects `top_k ≤ 0`,
`top_p` outside `(0,1]` and `temperature ≤ 0` with `InvalidParameterError`
before any output is produced. -/
def llama_sample_top_p_top_k_checked (ex : ℚ → ℚ) (logits : List ℚ)
    (last_n_tokens : List ℕ) (repeat_penalty : ℚ) (top_k : ℤ)
    (top_p temp u : ℚ) : Except UtilError ℕ :=
  if top_k ≤ 0 then .error .InvalidParameterError
  else if ¬ (0 < top_p ∧ top_p ≤ 1) then .error .InvalidParameterError
  else if temp ≤ 0 then .error .InvalidParameterError
  else .ok (llama_sample_top_p_top_k ex logits last_n_tokens repeat_penalty
      top_k.toNat top_p temp u)

/-!
## Greedy longest-match tokenizer (spec §4.2)

Modelled from the spec: the body of `llama_tokenize` is not under the
visible sources (only its declaration in `utils.h`), so the
SentencePiece-style greedy longest-match strategy is transcribed from
spec §4.2.  A vocabulary entry is `(token characters, id, score)`.
-/

/-- A vocabulary entry: token text, id, and score (`gpt_vocab`). -/
abbrev VocabEntry : Type := List Char × ℕ × ℚ

/-- The vocabulary seen by `llama_tokenize`: the entries of
`token_to_id`/`score` plus the designated beginning-of-sequence id. -/
structure LVocab where
  entries : List VocabEntry
  bosId : ℕ

/-- `betterEntry a b` holds when candidate `a` beats candidate `b`:
longer token, or equal length and strictly higher score. -/
def betterEntry (a b : VocabEntry) : Bool :=
  decide (b.1.length < a.1.length ∨ (a.1.length = b.1.length ∧ b.2.2 < a.2.2))

/-- Modelled from the spec: the best match at the current position — the
longest nonempty vocabulary token that is a prefix of the remaining text,
preferring higher score on length ties (earliest entry on full ties). -/
def bestMatch : List VocabEntry → List Char → Option VocabEntry
  | [], _ => none
  | e :: es, rem =>
      let rest := bestMatch es rem
      if !e.1.isEmpty && e.1.isPrefixOf rem then
        match rest with
        | none => some e
        | some b => if betterEntry b e then some b else some e
      else rest

/-- Modelled from the spec: the left-to-right greedy scan — emit the best
match's id and advance past it; skip one character when nothing matches.
`fuel` bounds the recursion; `text.length` is always enough because every
match is nonempty. -/
def tokenizeGo (vocab : List VocabEntry) : ℕ → List Char → List ℕ
  | 0, _ => []
  | _, [] => []
  | fuel + 1, c :: rest =>
      match bestMatch vocab (c :: rest) with
      | none => tokenizeGo vocab fuel rest
      | some e => e.2.1 :: tokenizeGo vocab fuel ((c :: rest).drop e.1.length)

/-- Modelled from the spec: `llama_tokenize` — optionally prepend the
beginning-of-sequence id, then greedily scan the text. -/
def llama_tokenize (vocab : LVocab) (text : List Char) (bos : Bool) :
    List ℕ :=
  (if bos then [vocab.bosId] else []) ++ tokenizeGo vocab.entries text.length text

/-- The example vocabulary of spec §8: `{"a":0, "ab":1, "b":2}`. -/
def exampleVocab : LVocab :=
  ⟨[(['a'], 0, 0), (['a', 'b'], 1, 0), (['b'], 2, 0)], 1⟩

/-!
## `gpt_params` (from `utils.h` itself)

`gpt_params` is fully visible in `src/Sources/cpp/utils.h`, so its defaults
are embedded from the source.  `n_threads` depends on
`std::thread::hardware_concurrency()`, which is passed explicitly.
-/

/-- The `gpt_params` structure of `utils.h` (ints as `ℤ`, floats as `ℚ`). -/
structure gpt_params where
  seed : ℤ
  n_threads : ℤ
  n_predict : ℤ
  repeat_last_n : ℤ
  n_ctx : ℤ
  memory_f16 : Bool
  top_k : ℤ
  top_p : ℚ
  temp : ℚ
  repeat_penalty : ℚ
  n_batch : ℤ
  model : String
  prompt : String
  random_prompt : Bool
  use_color : Bool
  interactive : Bool
  interactive_start : Bool
  antiprompt : List String
  instruct : Bool
  ignore_eos : Bool

/-- The default-constructed `gpt_params` of `utils.h`, as a function of the
hardware concurrency that determines `n_threads`. -/
def gpt_params_default (hardware_concurrency : ℤ) : gpt_params :=
  { seed := -1
    n_threads := min 4 hardware_concurrency
    n_predict := 128
    repeat_last_n := 64
    n_ctx := 512
    memory_f16 := false
    top_k := 40
    top_p := 95/100
    temp := 80/100
    repeat_penalty := 130/100
    n_batch := 8
    model := ""
    prompt := ""
    random_prompt := false
    use_color := false
    interactive := false
    interactive_start := false
    antiprompt := []
    instruct := false
    ignore_eos := false }

/-- A caller that passes a `gpt_params` through unmodified: the sampler is
invoked with exactly the structure's sampling fields. -/
def sampleWithParams (p : gpt_params) (ex : ℚ → ℚ) (logits : List ℚ)
    (last_n_tokens : List ℕ) (u : ℚ) : Except UtilError ℕ :=
  llama_sample_top_p_top_k_checked ex logits last_n_tokens
    p.repeat_penalty p.top_k p.top_p p.temp u

/-!
## Helper lemmas
-/

lemma le_foldr_max (x : ℚ) (xs : List ℚ) : x ≤ xs.foldr max x := by
  induction xs generalizing x with
  | nil => exact le_refl x
  | cons y ys ih => exact le_trans (ih x) (le_max_right y (ys.foldr max x))

lemma mem_le_foldr_max (v x : ℚ) (xs : List ℚ) (h : v ∈ xs) :
    v ≤ xs.foldr max x := by
  induction xs with
  | nil => cases h
  | cons y ys ih =>
      rcases List.mem_cons.mp h with rfl | hmem
      · exact le_max_left v (ys.foldr max x)
      · exact le_trans (ih hmem) (le_max_right y (ys.foldr max x))

lemma mem_le_listMax2 (v : ℚ) (l : List ℚ) (h : v ∈ l) : v ≤ listMax2 l := by
  cases l with
  | nil => cases h
  | cons x xs =>
      rcases List.mem_cons.mp h with rfl | hmem
      · exact le_foldr_max v xs
      · exact mem_le_foldr_max v x xs hmem

lemma foldr_min_le (x : ℚ) (xs : List ℚ) : xs.foldr min x ≤ x := by
  induction xs generalizing x with
  | nil => exact le_refl x
  | cons y ys ih => exact le_trans (min_le_right y (ys.foldr min x)) (ih x)

lemma foldr_min_le_mem (v x : ℚ) (xs : List ℚ) (h : v ∈ xs) :
    xs.foldr min x ≤ v := by
  induction xs with
  | nil => cases h
  | cons y ys ih =>
      rcases List.mem_cons.mp h with rfl | hmem
      · exact min_le_left v (ys.foldr min x)
      · exact le_trans (min_le_right y (ys.foldr min x)) (ih hmem)

lemma listMin2_le_mem (v : ℚ) (l : List ℚ) (h : v ∈ l) : listMin2 l ≤ v := by
  cases l with
  | nil => cases h
  | cons x xs =>
      rcases List.mem_cons.mp h with rfl | hmem
      · exact foldr_min_le v xs
      · exact foldr_min_le_mem v x xs hmem

lemma abs_le_absMax (v : ℚ) (blk : List ℚ) (h : v ∈ blk) : |v| ≤ absMax blk :=
  mem_le_listMax2 |v| (blk.map (fun w => |w|))
    (List.mem_map.mpr ⟨v, h, rfl⟩)

lemma absMax_nonneg (v : ℚ) (blk : List ℚ) (h : v ∈ blk) : 0 ≤ absMax blk :=
  le_trans (abs_nonneg v) (abs_le_absMax v blk h)

lemma roundAway_sub_le (q : ℚ) : |(roundAway q : ℚ) - q| ≤ 1/2 := by
  unfold roundAway
  split
  · have h1 : (⌊q + 1/2⌋ : ℚ) ≤ q + 1/2 := Int.floor_le _
    have h2 : q + 1/2 < (⌊q + 1/2⌋ : ℚ) + 1 := Int.lt_floor_add_one _
    rw [abs_le]
    constructor <;> [push_cast; push_cast] <;> linarith
  · have h1 : (⌊-q + 1/2⌋ : ℚ) ≤ -q + 1/2 := Int.floor_le _
    have h2 : -q + 1/2 < (⌊-q + 1/2⌋ : ℚ) + 1 := Int.lt_floor_add_one _
    rw [abs_le]
    constructor <;> [push_cast; push_cast] <;> linarith

lemma floor_half : ⌊(1/2 : ℚ)⌋ = 0 := by
  rw [Int.floor_eq_zero_iff]
  constructor <;> norm_num

lemma roundAway_intCast (m : ℤ) : roundAway (m : ℚ) = m := by
  unfold roundAway
  split
  · rw [add_comm, Int.floor_add_int, floor_half, zero_add]
  · have : -(m : ℚ) + 1/2 = 1/2 + (-m : ℤ) := by push_cast; ring
    rw [this, Int.floor_add_int, floor_half, zero_add, neg_neg]

lemma clampZ_eq_self (z : ℤ) (h1 : 0 ≤ z) (h2 : z ≤ 15) : clampZ 0 15 z = z := by
  unfold clampZ; omega

lemma q4_0_roundtrip1 (scale v : ℚ) (hs : 0 ≤ scale) (hv : |v| ≤ 7 * scale) :
    |q4_0_dequant1 scale (q4_0_code1 scale v) - v| ≤ scale ∧
    (∀ m : ℤ, v = (m : ℚ) * scale →
      q4_0_dequant1 scale (q4_0_code1 scale v) = v) := by
  rcases eq_or_lt_of_le hs with hz | hpos
  · have hv0 : v = 0 := by
      have : |v| ≤ 0 := by rw [← hz] at hv; linarith
      have := abs_nonneg v
      have : |v| = 0 := le_antisymm ‹|v| ≤ 0› this
      exact abs_eq_zero.mp this
    subst hv0
    have hcode : q4_0_code1 scale 0 = 8 := by
      unfold q4_0_code1
      rw [← hz]
      norm_num [roundAway, clampZ]
    constructor
    · rw [hcode]
      unfold q4_0_dequant1
      rw [← hz]
      norm_num
    · intro m _
      rw [hcode]
      unfold q4_0_dequant1
      rw [← hz]
      norm_num
  · set u := v / scale with hu
    have hvs : v = u * scale := by
      rw [hu]; field_simp
    have hu7 : |u| ≤ 7 := by
      rw [hu, abs_div, abs_of_pos hpos, div_le_iff₀ hpos]
      linarith
    set r := roundAway u with hr
    have hru : |(r : ℚ) - u| ≤ 1/2 := roundAway_sub_le u
    have hub : -7 ≤ u ∧ u ≤ 7 := abs_le.mp hu7
    have hrb : -7 ≤ r ∧ r ≤ 7 := by
      have h1 : (r : ℚ) ≤ u + 1/2 := by
        have := (abs_le.mp hru).2; linarith
      have h2 : u - 1/2 ≤ (r : ℚ) := by
        have := (abs_le.mp hru).1; linarith
      constructor
      · have : (-8 : ℚ) < (r : ℚ) := by linarith [hub.1]
        have : (-8 : ℤ) < r := by exact_mod_cast this
        omega
      · have : (r : ℚ) < 8 := by linarith [hub.2]
        have : r < (8 : ℤ) := by exact_mod_cast this
        omega
    have hcode : q4_0_code1 scale v = r + 8 := by
      unfold q4_0_code1
      rw [← hu, ← hr, clampZ_eq_self _ (by omega) (by omega)]
    have hdeq : q4_0_dequant1 scale (q4_0_code1 scale v) = (r : ℚ) * scale := by
      rw [hcode]
      unfold q4_0_dequant1
      push_cast
      ring
    constructor
    · rw [hdeq, hvs, ← sub_mul, abs_mul, abs_of_pos hpos]
      calc |(r : ℚ) - u| * scale ≤ (1/2) * scale := by
            exact mul_le_mul_of_nonneg_right hru hs
        _ ≤ scale := by linarith
    · intro m hm
      have hum : u = (m : ℚ) := by
        rw [hu, hm]
        field_simp
      have hrm : r = m := by
        rw [hr, hum, roundAway_intCast]
      rw [hdeq, hrm, ← hm]

lemma q4_1_roundtrip1 (scale vmin v : ℚ) (hs : 0 ≤ scale)
    (h1 : vmin ≤ v) (h2 : v ≤ vmin + 15 * scale) :
    |q4_1_dequant1 scale vmin (q4_1_code1 scale vmin v) - v| ≤ scale ∧
    (∀ m : ℤ, v - vmin = (m : ℚ) * scale →
      q4_1_dequant1 scale vmin (q4_1_code1 scale vmin v) = v) := by
  rcases eq_or_lt_of_le hs with hz | hpos
  · have hv : v = vmin := by
      rw [← hz] at h2
      linarith
    have hcode : q4_1_code1 scale vmin v = 0 := by
      unfold q4_1_code1
      rw [if_pos hz.symm]
    constructor
    · rw [hcode]
      unfold q4_1_dequant1
      rw [hv]
      simpa using hs
    · intro m _
      rw [hcode]
      unfold q4_1_dequant1
      rw [hv]
      norm_num
  · set u := (v - vmin) / scale with hu
    have hvs : v = u * scale + vmin := by
      rw [hu]; field_simp
    have hub : 0 ≤ u ∧ u ≤ 15 := by
      constructor
      · rw [hu]
        exact div_nonneg (by linarith) (le_of_lt hpos)
      · rw [hu, div_le_iff₀ hpos]
        linarith
    set r := roundAway u with hr
    have hru : |(r : ℚ) - u| ≤ 1/2 := roundAway_sub_le u
    have hrb : 0 ≤ r ∧ r ≤ 15 := by
      have ha : (r : ℚ) ≤ u + 1/2 := by
        have := (abs_le.mp hru).2; linarith
      have hb : u - 1/2 ≤ (r : ℚ) := by
        have := (abs_le.mp hru).1; linarith
      constructor
      · have : (-1 : ℚ) < (r : ℚ) := by linarith [hub.1]
        have : (-1 : ℤ) < r := by exact_mod_cast this
        omega
      · have : (r : ℚ) < 16 := by linarith [hub.2]
        have : r < (16 : ℤ) := by exact_mod_cast this
        omega
    have hcode : q4_1_code1 scale vmin v = r := by
      unfold q4_1_code1
      rw [if_neg (by exact ne_of_gt hpos), ← hu, ← hr,
        clampZ_eq_self _ (by omega) (by omega)]
    have hdeq : q4_1_dequant1 scale vmin (q4_1_code1 scale vmin v) =
        (r : ℚ) * scale + vmin := by
      rw [hcode]
      unfold q4_1_dequant1
      ring
    constructor
    · rw [hdeq, hvs]
      have : (r : ℚ) * scale + vmin - (u * scale + vmin) = ((r : ℚ) - u) * scale := by
        ring
      rw [this, abs_mul, abs_of_pos hpos]
      calc |(r : ℚ) - u| * scale ≤ (1/2) * scale :=
            mul_le_mul_of_nonneg_right hru hs
        _ ≤ scale := by linarith
    · intro m hm
      have hum : u = (m : ℚ) := by
        rw [hu, hm]
        field_simp
      have hrm : r = m := by
        rw [hr, hum, roundAway_intCast]
      rw [hdeq, hrm]
      have : (m : ℚ) * scale = v - vmin := hm.symm
      linarith

lemma foldr_max_replicate (m : ℕ) : (List.replicate m (0:ℚ)).foldr max 0 = 0 := by
  induction m with
  | zero => rfl
  | succ k ih => rw [List.replicate_succ, List.foldr_cons, ih]; exact max_self 0

lemma foldr_min_replicate (m : ℕ) : (List.replicate m (0:ℚ)).foldr min 0 = 0 := by
  induction m with
  | zero => rfl
  | succ k ih => rw [List.replicate_succ, List.foldr_cons, ih]; exact min_self 0

lemma listMax2_replicate_zero (m : ℕ) : listMax2 (List.replicate m (0:ℚ)) = 0 := by
  cases m with
  | zero => rfl
  | succ k => rw [List.replicate_succ]; exact foldr_max_replicate k

lemma listMin2_replicate_zero (m : ℕ) : listMin2 (List.replicate m (0:ℚ)) = 0 := by
  cases m with
  | zero => rfl
  | succ k => rw [List.replicate_succ]; exact foldr_min_replicate k

lemma absMax_replicate_zero (m : ℕ) : absMax (List.replicate m (0:ℚ)) = 0 := by
  unfold absMax
  rw [List.map_replicate, abs_zero]
  exact listMax2_replicate_zero m

/-!
## Claim theorems
-/

/-- Claim C2: for every id present in the sampling history, the repetition
penalty divides the logit by `repeat_penalty` when it is strictly positive
and multiplies it by `repeat_penalty` when it is negative; a zero logit is
left unchanged. -/
theorem repeat_penalty_asymmetric (history : List ℕ) (rp : ℚ)
    (lid : List (ℚ × ℕ)) (j : ℕ) (l : ℚ) (i : ℕ)
    (hj : lid.get? j = some (l, i)) (hin : i ∈ history) :
    (applyRepeatPenalty history rp lid).get? j =
      some (if 0 < l then l / rp else l * rp, i) ∧
    (l < 0 → (applyRepeatPenalty history rp lid).get? j = some (l * rp, i)) ∧
    (l = 0 → (applyRepeatPenalty history rp lid).get? j = some (l, i)) := by
  have hmap : (applyRepeatPenalty history rp lid).get? j =
      some (if 0 < l then l / rp else l * rp, i) := by
    unfold applyRepeatPenalty
    rw [List.get?_map, hj]
    simp [hin]
  refine ⟨hmap, ?_, ?_⟩
  · intro hneg
    rw [hmap, if_neg (by linarith)]
  · intro h0
    subst h0
    rw [hmap]
    norm_num

/-- Witness for claim C2 at a concrete history, penalty and logit. -/
theorem repeat_penalty_asymmetric_witness :
    (applyRepeatPenalty [5] (13/10) [((2 : ℚ), 5)]).get? 0 =
      some (if (0 : ℚ) < 2 then (2 : ℚ) / (13/10) else 2 * (13/10), 5) ∧
    ((2 : ℚ) < 0 →
      (applyRepeatPenalty [5] (13/10) [((2 : ℚ), 5)]).get? 0 =
        some ((2 : ℚ) * (13/10), 5)) ∧
    ((2 : ℚ) = 0 →
      (applyRepeatPenalty [5] (13/10) [((2 : ℚ), 5)]).get? 0 =
        some ((2 : ℚ), 5)) :=
  repeat_penalty_asymmetric [5] (13/10) [((2 : ℚ), 5)] 0 2 5 rfl (by decide)

/-- Claim C3: in the symmetric variant the per-block scale is the maximum
absolute value divided by 7, every value is encoded as
`round(v/scale) + 8` clamped to `[0,15]`, dequantization of a code `c` is
`(c - 8) * scale`, and the entry point applies this codec blockwise; on the
spec §8 example block the codec produces scale `1/7` and codes
`[1, 8, 15, 12]`. -/
theorem q4_0_codec_spec :
    (∀ blk : List ℚ, (q4_0_block blk).1 = absMax blk / 7 ∧
      (q4_0_block blk).2 =
        blk.map (fun v => clampZ 0 15 (roundAway (v / (absMax blk / 7)) + 8))) ∧
    (∀ (s : ℚ) (c : ℤ), q4_0_dequant1 s c = ((c : ℚ) - 8) * s) ∧
    (∀ (src : List ℚ) (qk : ℕ),
      ggml_quantize_q4_0 src qk = (chunkList qk src).map q4_0_block) ∧
    q4_0_block [-1, 0, 1, 1/2] = (1/7, [1, 8, 15, 12]) := by
  refine ⟨fun blk => ⟨rfl, rfl⟩, fun s c => rfl, fun src qk => rfl, ?_⟩
  have habs : absMax [-1, 0, 1, 1/2] = 1 := by
    norm_num [absMax, listMax2, List.map, List.foldr]
    rw [show |(1/2 : ℚ)| = 1/2 from by norm_num]
    norm_num
  have hscale : q4_0_scale [-1, 0, 1, 1/2] = 1/7 := by
    unfold q4_0_scale
    rw [habs]
  have hdiv : ∀ v : ℚ, v / (1/7) = 7 * v := by
    intro v; field_simp; ring
  refine Prod.ext ?_ ?_
  · exact hscale
  · show ([-1, 0, 1, 1/2] : List ℚ).map (q4_0_code1 (q4_0_scale [-1, 0, 1, 1/2])) = _
    rw [hscale]
    norm_num [List.map, q4_0_code1, hdiv, roundAway, clampZ, floor_half]

/-- Claim C5: a degenerate asymmetric block (`max = min`) uses scale 0 and
maps every element to code 0 (the guarded branch performs no division), and
quantize-then-dequantize of an all-zero block is all zeros in both
variants. -/
theorem degenerate_and_zero_blocks :
    (∀ blk : List ℚ, listMax2 blk = listMin2 blk →
      q4_1_scale blk = 0 ∧
      (q4_1_block blk).2.2 = blk.map (fun _ => (0 : ℤ))) ∧
    (∀ m : ℕ,
      q4_0_dequant_block (q4_0_block (List.replicate m 0)) =
        List.replicate m (0 : ℚ) ∧
      q4_1_dequant_block (q4_1_block (List.replicate m 0)) =
        List.replicate m (0 : ℚ)) := by
  constructor
  · intro blk hmm
    have hs : q4_1_scale blk = 0 := by
      unfold q4_1_scale
      rw [hmm, sub_self, zero_div]
    refine ⟨hs, ?_⟩
    show blk.map (q4_1_code1 (q4_1_scale blk) (listMin2 blk)) = _
    rw [hs]
    exact List.map_congr_left (fun v _ => by unfold q4_1_code1; rw [if_pos rfl])
  · intro m
    have hs0 : q4_0_scale (List.replicate m (0:ℚ)) = 0 := by
      unfold q4_0_scale
      rw [absMax_replicate_zero, zero_div]
    have hmax : listMax2 (List.replicate m (0:ℚ)) = 0 := listMax2_replicate_zero m
    have hmin : listMin2 (List.replicate m (0:ℚ)) = 0 := listMin2_replicate_zero m
    have hs1 : q4_1_scale (List.replicate m (0:ℚ)) = 0 := by
      unfold q4_1_scale
      rw [hmax, hmin, sub_self, zero_div]
    constructor
    · show (q4_0_block (List.replicate m 0)).2.map
          (q4_0_dequant1 (q4_0_block (List.replicate m 0)).1) = _
      show ((List.replicate m (0:ℚ)).map
          (q4_0_code1 (q4_0_scale (List.replicate m 0)))).map
          (q4_0_dequant1 (q4_0_scale (List.replicate m 0))) = _
      rw [hs0, List.map_replicate, List.map_replicate]
      have : q4_0_dequant1 0 (q4_0_code1 0 0) = 0 := by
        norm_num [q4_0_dequant1, q4_0_code1, roundAway, clampZ, floor_half]
      rw [this]
    · show (q4_1_block (List.replicate m 0)).2.2.map
          (q4_1_dequant1 (q4_1_block (List.replicate m 0)).1
            (q4_1_block (List.replicate m 0)).2.1) = _
      show ((List.replicate m (0:ℚ)).map
          (q4_1_code1 (q4_1_scale (List.replicate m 0))
            (listMin2 (List.replicate m 0)))).map
          (q4_1_dequant1 (q4_1_scale (List.replicate m 0))
            (listMin2 (List.replicate m 0))) = _
      rw [hs1, hmin, List.map_replicate, List.map_replicate]
      have : q4_1_dequant1 0 0 (q4_1_code1 0 0 0) = 0 := by
        norm_num [q4_1_dequant1, q4_1_code1]
      rw [this]

/-- Witness for claim C5 at a concrete degenerate block and a concrete
all-zero block. -/
theorem degenerate_and_zero_blocks_witness :
    q4_1_scale [(5 : ℚ), 5] = 0 ∧
    (q4_1_block [(5 : ℚ), 5]).2.2 = [(5 : ℚ), 5].map (fun _ => (0 : ℤ)) ∧
    q4_0_dequant_block (q4_0_block (List.replicate 3 0)) =
      List.replicate 3 (0 : ℚ) := by
  obtain ⟨hdeg, hzero⟩ := degenerate_and_zero_blocks
  have h55 : listMax2 [(5 : ℚ), 5] = listMin2 [(5 : ℚ), 5] := by
    norm_num [listMax2, listMin2, List.foldr]
  exact ⟨(hdeg [5, 5] h55).1, (hdeg [5, 5] h55).2, (hzero 3).1⟩

/-- Claim C7: sampling is deterministic as a two-run property — two calls
with the same generator draw, logits, history and parameters return the
same id. -/
theorem sampler_deterministic (ex1 ex2 : ℚ → ℚ) (lg1 lg2 : List ℚ)
    (hist1 hist2 : List ℕ) (rp1 rp2 : ℚ) (k1 k2 : ℤ) (p1 p2 t1 t2 u1 u2 : ℚ)
    (hex : ex1 = ex2) (hlg : lg1 = lg2) (hh : hist1 = hist2) (hrp : rp1 = rp2)
    (hk : k1 = k2) (hp : p1 = p2) (ht : t1 = t2) (hu : u1 = u2) :
    llama_sample_top_p_top_k_checked ex1 lg1 hist1 rp1 k1 p1 t1 u1 =
      llama_sample_top_p_top_k_checked ex2 lg2 hist2 rp2 k2 p2 t2 u2 := by
  subst hex hlg hh hrp hk hp ht hu
  rfl

/-- Witness for claim C7 at concrete equal inputs. -/
theorem sampler_deterministic_witness :
    llama_sample_top_p_top_k_checked (fun x => 1 + x) [1, 2] [0] (13/10) 2
        (95/100) (4/5) (1/3) =
      llama_sample_top_p_top_k_checked (fun x => 1 + x) [1, 2] [0] (13/10) 2
        (95/100) (4/5) (1/3) :=
  sampler_deterministic (fun x => 1 + x) (fun x => 1 + x) [1, 2] [1, 2]
    [0] [0] (13/10) (13/10) 2 2 (95/100) (95/100) (4/5) (4/5) (1/3) (1/3)
    rfl rfl rfl rfl rfl rfl rfl rfl

/-- Claim C8: the sampler rejects `top_k ≤ 0`, `top_p` outside `(0,1]` and
`temperature ≤ 0`, and the quantizer rejects a block size that does not
divide the element count, each with `InvalidParameterError` and before any
output is produced. -/
theorem invalid_parameter_rejection :
    (∀ (ex : ℚ → ℚ) (logits : List ℚ) (hist : List ℕ) (rp : ℚ) (top_k : ℤ)
        (top_p temp u : ℚ),
      (top_k ≤ 0 ∨ ¬ (0 < top_p ∧ top_p ≤ 1) ∨ temp ≤ 0) →
      llama_sample_top_p_top_k_checked ex logits hist rp top_k top_p temp u =
        .error .InvalidParameterError) ∧
    (∀ (src : List ℚ) (n k qk : ℕ), ¬ (qk ∣ n * k) →
      ggml_quantize_q4_0_checked src n k qk = .error .InvalidParameterError ∧
      ggml_quantize_q4_1_checked src n k qk = .error .InvalidParameterError) := by
  constructor
  · intro ex logits hist rp top_k top_p temp u h
    unfold llama_sample_top_p_top_k_checked
    by_cases hA : top_k ≤ 0
    · rw [if_pos hA]
    · rw [if_neg hA]
      by_cases hB : 0 < top_p ∧ top_p ≤ 1
      · rw [if_neg (not_not_intro hB)]
        have hC : temp ≤ 0 := by tauto
        rw [if_pos hC]
      · rw [if_pos hB]
  · intro src n k qk h
    constructor
    · unfold ggml_quantize_q4_0_checked
      rw [if_pos (Or.inr h)]
    · unfold ggml_quantize_q4_1_checked
      rw [if_pos (Or.inr h)]

/-- Witness for claim C8: a non-positive `top_k` and a block size that does
not divide the element count are both rejected. -/
theorem invalid_parameter_rejection_witness :
    llama_sample_top_p_top_k_checked (fun x => x) [1, 2] [] (13/10) 0
        (95/100) (4/5) 0 = .error .InvalidParameterError ∧
    ggml_quantize_q4_0_checked [1, 2] 1 2 3 = .error .InvalidParameterError := by
  obtain ⟨hs, hq⟩ := invalid_parameter_rejection
  refine ⟨hs (fun x => x) [1, 2] [] (13/10) 0 (95/100) (4/5) 0 (Or.inl (by norm_num)), ?_⟩
  exact (hq [1, 2] 1 2 3 (by decide)).1

/-- Claim C10: a default-constructed `gpt_params` carries the documented
sampling and session defaults, and a caller passing the structure through
unmodified samples with exactly these parameters. -/
theorem gpt_params_default_values (hw : ℤ) :
    (gpt_params_default hw).seed = -1 ∧
    (gpt_params_default hw).n_predict = 128 ∧
    (gpt_params_default hw).repeat_last_n = 64 ∧
    (gpt_params_default hw).n_ctx = 512 ∧
    (gpt_params_default hw).top_k = 40 ∧
    (gpt_params_default hw).top_p = 95/100 ∧
    (gpt_params_default hw).temp = 80/100 ∧
    (gpt_params_default hw).repeat_penalty = 130/100 ∧
    (gpt_params_default hw).n_batch = 8 ∧
    (∀ (ex : ℚ → ℚ) (logits : List ℚ) (hist : List ℕ) (u : ℚ),
      sampleWithParams (gpt_params_default hw) ex logits hist u =
        llama_sample_top_p_top_k_checked ex logits hist (130/100) 40
          (95/100) (80/100) u) :=
  ⟨rfl, rfl, rfl, rfl, rfl, rfl, rfl, rfl, rfl, fun ex logits hist u => rfl⟩

/-- Claim C1: with valid parameters, `llama_sample_top_p_top_k` is exactly
the composition of the four stages in order — repetition penalty, top-k,
top-p, then temperature scaling with softmax re-normalization and a single
draw; no stage is skipped or reordered. -/
theorem sampler_pipeline_order (ex : ℚ → ℚ) (logits : List ℚ)
    (hist : List ℕ) (rp : ℚ) (top_k : ℤ) (top_p temp u : ℚ)
    (hk : 0 < top_k) (hp1 : 0 < top_p) (hp2 : top_p ≤ 1) (ht : 0 < temp) :
    llama_sample_top_p_top_k_checked ex logits hist rp top_k top_p temp u =
      .ok (temperatureDraw ex temp u
            (sample_top_p ex top_p
              (sample_top_k
                (applyRepeatPenalty hist rp (logitsWithIds logits))
                top_k.toNat))) := by
  unfold llama_sample_top_p_top_k_checked
  rw [if_neg (by omega), if_neg (not_not_intro ⟨hp1, hp2⟩),
    if_neg (not_le.mpr ht)]
  rfl

/-- Witness for claim C1 at concrete valid parameters. -/
theorem sampler_pipeline_order_witness :
    llama_sample_top_p_top_k_checked (fun x => 1 + x) [1, 2] [0] (13/10) 2
        (95/100) (4/5) 0 =
      .ok (temperatureDraw (fun x => 1 + x) (4/5) 0
            (sample_top_p (fun x => 1 + x) (95/100)
              (sample_top_k
                (applyRepeatPenalty [0] (13/10) (logitsWithIds [1, 2]))
                (2 : ℤ).toNat))) :=
  sampler_pipeline_order (fun x => 1 + x) [1, 2] [0] (13/10) 2 (95/100)
    (4/5) 0 (by norm_num) (by norm_num) (by norm_num) (by norm_num)

/-- Counterexample for claim C4 as stated: in the asymmetric variant the
block `[1/2, 3, 10, 31/2]` (a full block of size 4) has scale 1, its
element 3 is an exact multiple of the scale and lies inside the block's
representable range, yet quantize-then-dequantize returns `7/2 ≠ 3`. -/
theorem q4_1_exactness_counterexample :
    ((3 : ℚ) ∈ [(1 : ℚ)/2, 3, 10, 31/2]) ∧
    q4_1_scale [(1 : ℚ)/2, 3, 10, 31/2] = 1 ∧
    (3 : ℚ) = ((3 : ℤ) : ℚ) * q4_1_scale [(1 : ℚ)/2, 3, 10, 31/2] ∧
    listMin2 [(1 : ℚ)/2, 3, 10, 31/2] ≤ 3 ∧
    (3 : ℚ) ≤ listMax2 [(1 : ℚ)/2, 3, 10, 31/2] ∧
    q4_1_dequant1 (q4_1_scale [(1 : ℚ)/2, 3, 10, 31/2])
        (listMin2 [(1 : ℚ)/2, 3, 10, 31/2])
        (q4_1_code1 (q4_1_scale [(1 : ℚ)/2, 3, 10, 31/2])
          (listMin2 [(1 : ℚ)/2, 3, 10, 31/2]) 3) = 7/2 := by
  have hmax : listMax2 [(1 : ℚ)/2, 3, 10, 31/2] = 31/2 := by
    norm_num [listMax2, List.foldr]
  have hmin : listMin2 [(1 : ℚ)/2, 3, 10, 31/2] = 1/2 := by
    norm_num [listMin2, List.foldr]
  have hscale : q4_1_scale [(1 : ℚ)/2, 3, 10, 31/2] = 1 := by
    unfold q4_1_scale
    rw [hmax, hmin]
    norm_num
  refine ⟨by norm_num, hscale, by rw [hscale]; norm_num, ?_, ?_, ?_⟩
  · rw [hmin]; norm_num
  · rw [hmax]; norm_num
  · rw [hscale, hmin]
    have hcode : q4_1_code1 1 (1/2) 3 = 3 := by
      unfold q4_1_code1
      rw [if_neg (by norm_num)]
      norm_num [roundAway, clampZ]
    rw [hcode]
    unfold q4_1_dequant1
    norm_num

/-- Claim C4 (amended): for every element of a block, under either variant,
quantize-then-dequantize lands within one quantization step (the block's
scale) of the element, and is exact when the element minus the variant's
offset (0 for the symmetric variant, the block minimum for the asymmetric
variant) is an exact integer multiple of the scale. -/
theorem quantize_roundtrip_error (blk : List ℚ) (v : ℚ) (hv : v ∈ blk) :
    (|q4_0_dequant1 (q4_0_scale blk) (q4_0_code1 (q4_0_scale blk) v) - v| ≤
        q4_0_scale blk ∧
      (∀ m : ℤ, v = (m : ℚ) * q4_0_scale blk →
        q4_0_dequant1 (q4_0_scale blk) (q4_0_code1 (q4_0_scale blk) v) = v)) ∧
    (|q4_1_dequant1 (q4_1_scale blk) (listMin2 blk)
          (q4_1_code1 (q4_1_scale blk) (listMin2 blk) v) - v| ≤
        q4_1_scale blk ∧
      (∀ m : ℤ, v - listMin2 blk = (m : ℚ) * q4_1_scale blk →
        q4_1_dequant1 (q4_1_scale blk) (listMin2 blk)
          (q4_1_code1 (q4_1_scale blk) (listMin2 blk) v) = v)) := by
  have habs : |v| ≤ absMax blk := abs_le_absMax v blk hv
  have habs0 : 0 ≤ absMax blk := absMax_nonneg v blk hv
  have hminle : listMin2 blk ≤ v := listMin2_le_mem v blk hv
  have hlemax : v ≤ listMax2 blk := mem_le_listMax2 v blk hv
  constructor
  · apply q4_0_roundtrip1
    · unfold q4_0_scale
      exact div_nonneg habs0 (by norm_num)
    · unfold q4_0_scale
      have h7 : 7 * (absMax blk / 7) = absMax blk := by ring
      rw [h7]
      exact habs
  · apply q4_1_roundtrip1
    · unfold q4_1_scale
      exact div_nonneg (by linarith) (by norm_num)
    · exact hminle
    · unfold q4_1_scale
      have h15 : 15 * ((listMax2 blk - listMin2 blk) / 15) =
          listMax2 blk - listMin2 blk := by ring
      rw [h15]
      linarith

/-- Witness for claim C4 (amended) at the spec §8 example block: element 1
round-trips within the scale for both variants and is reproduced exactly by
the symmetric variant (it is 7 times the scale 1/7). -/
theorem quantize_roundtrip_error_witness :
    |q4_0_dequant1 (q4_0_scale [-1, 0, 1, 1/2])
        (q4_0_code1 (q4_0_scale [-1, 0, 1, 1/2]) 1) - 1| ≤
      q4_0_scale [-1, 0, 1, 1/2] ∧
    |q4_1_dequant1 (q4_1_scale [-1, 0, 1, 1/2]) (listMin2 [-1, 0, 1, 1/2])
        (q4_1_code1 (q4_1_scale [-1, 0, 1, 1/2]) (listMin2 [-1, 0, 1, 1/2]) 1) -
        1| ≤ q4_1_scale [-1, 0, 1, 1/2] ∧
    q4_0_dequant1 (q4_0_scale [-1, 0, 1, 1/2])
        (q4_0_code1 (q4_0_scale [-1, 0, 1, 1/2]) 1) = 1 := by
  have hmem : (1 : ℚ) ∈ [(-1 : ℚ), 0, 1, 1/2] := by norm_num
  have hscale : q4_0_scale [-1, 0, 1, 1/2] = 1/7 := by
    unfold q4_0_scale
    have : absMax [-1, 0, 1, 1/2] = 1 := by
      norm_num [absMax, listMax2, List.map, List.foldr]
      rw [show |(1/2 : ℚ)| = 1/2 from by norm_num]
      norm_num
    rw [this]
  refine ⟨(quantize_roundtrip_error [-1, 0, 1, 1/2] 1 hmem).1.1,
    (quantize_roundtrip_error [-1, 0, 1, 1/2] 1 hmem).2.1,
    (quantize_roundtrip_error [-1, 0, 1, 1/2] 1 hmem).1.2 7 ?_⟩
  rw [hscale]
  norm_num

lemma chunkList_get (qk i : ℕ) (l : List ℚ) (hqk : qk ≠ 0)
    (hi : i * qk < l.length) :
    (chunkList qk l).get? i = some ((l.drop (i * qk)).take qk) := by
  induction i generalizing l with
  | zero =>
      have hl : l ≠ [] := by
        intro h
        subst h
        simp at hi
      rw [chunkList, if_neg (by push_neg; exact ⟨hqk, hl⟩)]
      simp
  | succ n ih =>
      have hl : l ≠ [] := by
        intro h
        subst h
        simp at hi
      rw [chunkList, if_neg (by push_neg; exact ⟨hqk, hl⟩)]
      rw [List.get?_cons_succ]
      have hlen : n * qk < (l.drop qk).length := by
        rw [List.length_drop]
        have hmul : (n + 1) * qk = n * qk + qk := by ring
        omega
      rw [ih (l.drop qk) hlen]
      rw [List.drop_drop]
      have hmul : qk + n * qk = (n + 1) * qk := by ring
      rw [hmul]

/-- Claim C9: quantization is pure and block-local — in the functional
embedding the source buffer is never written, block `i` of either variant's
output is exactly the block codec applied to slice `i` of the source, and
two sources agreeing on slice `i` produce the same block `i` output. -/
theorem quantize_block_locality (src : List ℚ) (qk i : ℕ) (hqk : qk ≠ 0)
    (hi : i * qk < src.length) :
    (ggml_quantize_q4_0 src qk).get? i =
      some (q4_0_block ((src.drop (i * qk)).take qk)) ∧
    (ggml_quantize_q4_1 src qk).get? i =
      some (q4_1_block ((src.drop (i * qk)).take qk)) ∧
    (∀ src2 : List ℚ, i * qk < src2.length →
      (src.drop (i * qk)).take qk = (src2.drop (i * qk)).take qk →
      (ggml_quantize_q4_0 src qk).get? i =
        (ggml_quantize_q4_0 src2 qk).get? i ∧
      (ggml_quantize_q4_1 src qk).get? i =
        (ggml_quantize_q4_1 src2 qk).get? i) := by
  have h0 : ∀ s : List ℚ, i * qk < s.length →
      (ggml_quantize_q4_0 s qk).get? i =
        some (q4_0_block ((s.drop (i * qk)).take qk)) := by
    intro s hs
    unfold ggml_quantize_q4_0
    rw [List.get?_map, chunkList_get qk i s hqk hs]
    rfl
  have h1 : ∀ s : List ℚ, i * qk < s.length →
      (ggml_quantize_q4_1 s qk).get? i =
        some (q4_1_block ((s.drop (i * qk)).take qk)) := by
    intro s hs
    unfold ggml_quantize_q4_1
    rw [List.get?_map, chunkList_get qk i s hqk hs]
    rfl
  refine ⟨h0 src hi, h1 src hi, fun src2 hi2 hslice => ?_⟩
  constructor
  · rw [h0 src hi, h0 src2 hi2, hslice]
  · rw [h1 src hi, h1 src2 hi2, hslice]

/-- Witness for claim C9 at a concrete buffer, block size and block index. -/
theorem quantize_block_locality_witness :
    (ggml_quantize_q4_0 [1, 2, 3, 4] 2).get? 1 =
      some (q4_0_block (([(1 : ℚ), 2, 3, 4].drop (1 * 2)).take 2)) ∧
    (ggml_quantize_q4_0 [1, 2, 3, 4] 2).get? 1 =
      (ggml_quantize_q4_0 [9, 9, 3, 4] 2).get? 1 := by
  have h := quantize_block_locality [1, 2, 3, 4] 2 1 (by norm_num) (by norm_num)
  refine ⟨h.1, ?_⟩
  exact (h.2.2 [9, 9, 3, 4] (by norm_num) (by norm_num [List.drop, List.take])).1

lemma bestMatch_none_spec (vocab : List VocabEntry) (rem : List Char)
    (h : bestMatch vocab rem = none) :
    ∀ b ∈ vocab, b.1 = [] ∨ b.1.isPrefixOf rem = false := by
  induction vocab with
  | nil =>
      intro b hb
      cases hb
  | cons e es ih =>
      intro b hb
      simp only [bestMatch] at h
      cases he : e.1.isEmpty with
      | true =>
          rw [he] at h
          simp only [Bool.not_true, Bool.false_and, Bool.false_eq_true,
            if_false] at h
          rcases List.mem_cons.mp hb with rfl | hbmem
          · exact Or.inl (List.isEmpty_iff.mp he)
          · exact ih h b hbmem
      | false =>
          cases hp : e.1.isPrefixOf rem with
          | false =>
              rw [he, hp] at h
              simp only [Bool.not_false, Bool.true_and, Bool.false_eq_true,
                if_false] at h
              rcases List.mem_cons.mp hb with rfl | hbmem
              · exact Or.inr hp
              · exact ih h b hbmem
          | true =>
              rw [he, hp] at h
              simp only [Bool.not_false, Bool.true_and, if_true] at h
              exfalso
              cases hrest : bestMatch es rem with
              | none =>
                  rw [hrest] at h
                  cases h
              | some b0 =>
                  rw [hrest] at h
                  have h' : (if betterEntry b0 e = true then some b0
                      else some e) = (none : Option VocabEntry) := h
                  cases hbet : betterEntry b0 e with
                  | true => rw [hbet] at h'; simp at h'
                  | false => rw [hbet] at h'; simp at h'

lemma bestMatch_spec (vocab : List VocabEntry) (rem : List Char) :
    ∀ e : VocabEntry, bestMatch vocab rem = some e →
    e ∈ vocab ∧ e.1 ≠ [] ∧ e.1.isPrefixOf rem = true ∧
    ∀ b ∈ vocab, b.1 ≠ [] → b.1.isPrefixOf rem = true →
      b.1.length < e.1.length ∨
        (b.1.length = e.1.length ∧ b.2.2 ≤ e.2.2) := by
  induction vocab with
  | nil =>
      intro e h
      simp [bestMatch] at h
  | cons e0 es ih =>
      intro e h
      simp only [bestMatch] at h
      cases he : e0.1.isEmpty with
      | true =>
          rw [he] at h
          simp only [Bool.not_true, Bool.false_and, Bool.false_eq_true,
            if_false] at h
          obtain ⟨hmem, hne, hpre, hmax⟩ := ih e h
          refine ⟨List.mem_cons_of_mem e0 hmem, hne, hpre, ?_⟩
          intro b hb hbne hbpre
          rcases List.mem_cons.mp hb with rfl | hbmem
          · exact absurd (List.isEmpty_iff.mp he) hbne
          · exact hmax b hbmem hbne hbpre
      | false =>
          cases hp : e0.1.isPrefixOf rem with
          | false =>
              rw [he, hp] at h
              simp only [Bool.not_false, Bool.true_and, Bool.false_eq_true,
                if_false] at h
              obtain ⟨hmem, hne, hpre, hmax⟩ := ih e h
              refine ⟨List.mem_cons_of_mem e0 hmem, hne, hpre, ?_⟩
              intro b hb hbne hbpre
              rcases List.mem_cons.mp hb with rfl | hbmem
              · rw [hbpre] at hp
                cases hp
              · exact hmax b hbmem hbne hbpre
          | true =>
              rw [he, hp] at h
              simp only [Bool.not_false, Bool.true_and, if_true] at h
              have hne0 : e0.1 ≠ [] := by
                intro hnil
                rw [hnil] at he
                cases he
              cases hrest : bestMatch es rem with
              | none =>
                  rw [hrest] at h
                  obtain rfl : e0 = e := by
                    injection h
                  refine ⟨List.mem_cons_self e0 es, hne0, hp, ?_⟩
                  intro b hb hbne hbpre
                  rcases List.mem_cons.mp hb with rfl | hbmem
                  · exact Or.inr ⟨rfl, le_refl _⟩
                  · rcases bestMatch_none_spec es rem hrest b hbmem with hnil | hfalse
                    · exact absurd hnil hbne
                    · rw [hbpre] at hfalse
                      cases hfalse
              | some b0 =>
                  rw [hrest] at h
                  have h' : (if betterEntry b0 e0 = true then some b0
                      else some e0) = some e := h
                  obtain ⟨hb0mem, hb0ne, hb0pre, hb0max⟩ := ih b0 hrest
                  cases hbet : betterEntry b0 e0 with
                  | true =>
                      rw [hbet] at h'
                      simp only [if_true] at h'
                      obtain rfl : b0 = e := by
                        injection h'
                      have hP := of_decide_eq_true hbet
                      refine ⟨List.mem_cons_of_mem e0 hb0mem, hb0ne, hb0pre, ?_⟩
                      intro b hb hbne hbpre
                      rcases List.mem_cons.mp hb with rfl | hbmem
                      · rcases hP with hlen | ⟨hlen, hsc⟩
                        · exact Or.inl hlen
                        · exact Or.inr ⟨hlen.symm, le_of_lt hsc⟩
                      · exact hb0max b hbmem hbne hbpre
                  | false =>
                      rw [hbet] at h'
                      simp only [Bool.false_eq_true, if_false] at h'
                      obtain rfl : e0 = e := by
                        injection h'
                      have hP : ¬ (e0.1.length < b0.1.length ∨
                          (b0.1.length = e0.1.length ∧ e0.2.2 < b0.2.2)) := by
                        intro hcon
                        rw [show betterEntry b0 e0 = true from decide_eq_true hcon]
                          at hbet
                        cases hbet
                      push_neg at hP
                      obtain ⟨hle, himp⟩ := hP
                      refine ⟨List.mem_cons_self e0 es, hne0, hp, ?_⟩
                      intro b hb hbne hbpre
                      rcases List.mem_cons.mp hb with rfl | hbmem
                      · exact Or.inr ⟨rfl, le_refl _⟩
                      · rcases hb0max b hbmem hbne hbpre with hlt | ⟨hlen, hsc⟩
                        · exact Or.inl (by omega)
                        · rcases lt_or_eq_of_le hle with hlt2 | heq2
                          · exact Or.inl (by omega)
                          · refine Or.inr ⟨by omega, ?_⟩
                            have := himp heq2
                            linarith

/-- Claim C6: the greedy tokenizer emits, at every position, the id of the
longest vocabulary token that is a prefix of the remaining text (ties
broken by higher score) and advances past the consumed text; on the
vocabulary `{"a":0, "ab":1, "b":2}` tokenizing `"ab"` yields `[1]`, not
`[0, 2]`. -/
theorem tokenizer_greedy_longest_match :
    (∀ (vocab : List VocabEntry) (rem : List Char) (e : VocabEntry),
      bestMatch vocab rem = some e →
      e ∈ vocab ∧ e.1 ≠ [] ∧ e.1.isPrefixOf rem = true ∧
      ∀ b ∈ vocab, b.1 ≠ [] → b.1.isPrefixOf rem = true →
        b.1.length < e.1.length ∨
          (b.1.length = e.1.length ∧ b.2.2 ≤ e.2.2)) ∧
    (∀ (vocab : List VocabEntry) (fuel : ℕ) (c : Char) (rest : List Char)
        (e : VocabEntry),
      bestMatch vocab (c :: rest) = some e →
      tokenizeGo vocab (fuel + 1) (c :: rest) =
        e.2.1 :: tokenizeGo vocab fuel ((c :: rest).drop e.1.length)) ∧
    llama_tokenize exampleVocab ['a', 'b'] false = [1] ∧
    llama_tokenize exampleVocab ['a', 'b'] false ≠ [0, 2] := by
  have hex : llama_tokenize exampleVocab ['a', 'b'] false = [1] := rfl
  refine ⟨fun vocab rem e h => bestMatch_spec vocab rem e h, ?_, hex, ?_⟩
  · intro vocab fuel c rest e h
    simp only [tokenizeGo]
    rw [h]
  · rw [hex]
    decide

/-- Witness for claim C6: on the example vocabulary the match selected at
`"ab"` is the entry `("ab", 1)`, which beats the competing prefix
`("a", 0)` by length. -/
theorem tokenizer_greedy_longest_match_witness :
    ((['a', 'b'], 1, (0 : ℚ)) ∈ exampleVocab.entries) ∧
    ((['a'] : List Char).length < (['a', 'b'] : List Char).length ∨
      ((['a'] : List Char).length = (['a', 'b'] : List Char).length ∧
        (0 : ℚ) ≤ 0)) ∧
    tokenizeGo exampleVocab.entries 2 ['a', 'b'] =
      1 :: tokenizeGo exampleVocab.entries 1 (['a', 'b'].drop 2) := by
  have h := tokenizer_greedy_longest_match.1 exampleVocab.entries ['a', 'b']
    (['a', 'b'], 1, 0) rfl
  refine ⟨h.1, h.2.2.2 (['a'], 0, 0) (by decide) (by decide) (by decide), ?_⟩
  exact tokenizer_greedy_longest_match.2.1 exampleVocab.entries 1 'a' ['b']
    (['a', 'b'], 1, 0) rfl

end LlamaSwift
